import Mathlib

/-!
Verification of the document-to-assessment pipeline of the english-elearning
backend: `backend/app/utils/question_generator.py` (keyword extraction and the
four question synthesizers plus the orchestrator `generate_all_questions`) and
`clean_text` from `backend/app/utils/file_parser.py`.

Modelling conventions:
* Python strings are modelled as `List Char` (ASCII fragment; the concrete
  inputs appearing in theorems are ASCII).
* Python's ambient random generator (`random.sample`, `random.choice`,
  `random.shuffle`) is modelled by explicit seed streams (`List Nat`): at each
  draw the head seed modulo the number of remaining candidates picks the item.
  Every outcome the Python RNG can produce is realised by some seed stream, so
  universally quantified theorems over seeds cover all runs of the code.
* The NLTK library calls `word_tokenize` / `sent_tokenize` and the NLTK
  English stopword list are not part of the repository; they are modelled
  executably: `wordTokenize` groups maximal runs of word characters and emits
  every other non-space character as a one-character token, `sentTokenize`
  splits after `.`, `!`, `?` and skips inter-sentence whitespace, and
  `stopWords` is the standard NLTK English stopword list.
* Python exceptions (`KeyError` in `generate_all_questions`) are modelled with
  `Except String`.
-/

/-- Coercion from string literals to the `List Char` representation. -/
def str (s : String) : List Char := s.data

/-- Python ASCII whitespace class `\s` = space, tab, newline, CR, VT, FF. -/
def isSpacePy (c : Char) : Bool :=
  c = ' ' || c = '\t' || c = '\n' || c = '\r' || c = '\x0b' || c = '\x0c'

/-- Python `\w` word character (ASCII fragment): letters, digits, underscore. -/
def isWordCharPy (c : Char) : Bool :=
  c.isAlpha || c.isDigit || c = '_'

/-- The punctuation kept by `clean_text`: `. , ! ? ; : ' " -`. -/
def isKeptPunct (c : Char) : Bool :=
  c = '.' || c = ',' || c = '!' || c = '?' || c = ';' || c = ':' ||
  c = '\'' || c = '"' || c = '-'

/-- Models `re.sub(r'\s+', ' ', text)`: every maximal whitespace run becomes a
single space.  Structured as a right fold: a whitespace character merges into
an already-emitted space. -/
def collapseWS : List Char → List Char
  | [] => []
  | c :: cs =>
    let r := collapseWS cs
    if isSpacePy c then if r.head? = some ' ' then r else ' ' :: r
    else c :: r

/-- Models `re.sub(r'[^\w\s.,!?;:\'"\-]', ' ', text)`: characters outside the
kept classes are replaced by a space (not deleted). -/
def stripSpecial (l : List Char) : List Char :=
  l.map fun c => if isWordCharPy c || isSpacePy c || isKeptPunct c then c else ' '

/-- Models Python `str.strip()`: drop leading and trailing whitespace. -/
def pyStrip (l : List Char) : List Char :=
  ((l.dropWhile isSpacePy).reverse.dropWhile isSpacePy).reverse

/-- `clean_text` from `file_parser.py`: collapse whitespace, replace special
characters by spaces, collapse again, strip. -/
def clean_text (l : List Char) : List Char :=
  pyStrip (collapseWS (stripSpecial (collapseWS l)))

/-- Characters that can appear in `clean_text` output: word characters, kept
punctuation, or a plain space. -/
def isCleanChar (c : Char) : Bool :=
  isWordCharPy c || isKeptPunct c || c = ' '

/-- Token characters for the word tokenizer model: word characters plus the
apostrophe (kept inside tokens by NLTK). -/
def isTokChar (c : Char) : Bool :=
  isWordCharPy c || c = '\''

/-- Auxiliary word tokenizer: `acc` holds the reversed current token. -/
def wordTokAux : List Char → List Char → List (List Char)
  | [], acc => if acc.isEmpty then [] else [acc.reverse]
  | c :: cs, acc =>
    if isTokChar c then wordTokAux cs (c :: acc)
    else if isSpacePy c then
      (if acc.isEmpty then [] else [acc.reverse]) ++ wordTokAux cs []
    else
      (if acc.isEmpty then [] else [acc.reverse]) ++ ([c] :: wordTokAux cs [])

/-- Model of `nltk.word_tokenize`: maximal runs of token characters are word
tokens; every other non-space character is its own one-character token. -/
def wordTokenize (l : List Char) : List (List Char) :=
  wordTokAux l []

/-- Sentence-ending characters for the sentence tokenizer model. -/
def isSentEnd (c : Char) : Bool :=
  c = '.' || c = '!' || c = '?'

/-- Auxiliary sentence tokenizer: `acc` holds the reversed current sentence. -/
def sentTokAux : List Char → List Char → List (List Char)
  | [], acc => if acc.isEmpty then [] else [acc.reverse]
  | c :: cs, acc =>
    if isSentEnd c then (acc.reverse ++ [c]) :: sentTokAux cs []
    else if isSpacePy c && acc.isEmpty then sentTokAux cs []
    else sentTokAux cs (c :: acc)

/-- Model of `nltk.sent_tokenize`: split after `.`, `!` or `?`, skipping the
whitespace between sentences; a trailing fragment without a terminator is a
sentence of its own; empty or all-whitespace input yields no sentences. -/
def sentTokenize (l : List Char) : List (List Char) :=
  sentTokAux l []

/-- The NLTK English stopword list used by `extract_keywords`
(`stopwords.words('english')`). -/
def stopWords : List (List Char) :=
  [str "i", str "me", str "my", str "myself", str "we", str "our",
   str "ours", str "ourselves", str "you", str "you're", str "you've",
   str "you'll", str "you'd", str "your", str "yours", str "yourself",
   str "yourselves", str "he", str "him", str "his", str "himself",
   str "she", str "she's", str "her", str "hers", str "herself",
   str "it", str "it's", str "its", str "itself", str "they", str "them",
   str "their", str "theirs", str "themselves", str "what", str "which",
   str "who", str "whom", str "this", str "that", str "that'll",
   str "these", str "those", str "am", str "is", str "are", str "was",
   str "were", str "be", str "been", str "being", str "have", str "has",
   str "had", str "having", str "do", str "does", str "did", str "doing",
   str "a", str "an", str "the", str "and", str "but", str "if", str "or",
   str "because", str "as", str "until", str "while", str "of", str "at",
   str "by", str "for", str "with", str "about", str "against",
   str "between", str "into", str "through", str "during", str "before",
   str "after", str "above", str "below", str "to", str "from", str "up",
   str "down", str "in", str "out", str "on", str "off", str "over",
   str "under", str "again", str "further", str "then", str "once",
   str "here", str "there", str "when", str "where", str "why", str "how",
   str "all", str "any", str "both", str "each", str "few", str "more",
   str "most", str "other", str "some", str "such", str "no", str "nor",
   str "not", str "only", str "own", str "same", str "so", str "than",
   str "too", str "very", str "s", str "t", str "can", str "will",
   str "just", str "don", str "don't", str "should", str "should've",
   str "now", str "d", str "ll", str "m", str "o", str "re", str "ve",
   str "y", str "ain", str "aren", str "aren't", str "couldn",
   str "couldn't", str "didn", str "didn't", str "doesn", str "doesn't",
   str "hadn", str "hadn't", str "hasn", str "hasn't", str "haven",
   str "haven't", str "isn", str "isn't", str "ma", str "mightn",
   str "mightn't", str "mustn", str "mustn't", str "needn", str "needn't",
   str "shan", str "shan't", str "shouldn", str "shouldn't", str "wasn",
   str "wasn't", str "weren", str "weren't", str "won", str "won't",
   str "wouldn", str "wouldn't"]

/-- Python `str.isalpha()` on a token: nonempty and all alphabetic. -/
def isAlphaTok (w : List Char) : Bool :=
  !w.isEmpty && w.all Char.isAlpha

/-- The words kept by `extract_keywords` before counting: lowercase, word
tokenize, keep alphabetic tokens longer than 3 characters that are not
stopwords. -/
def eligibleWords (text : List Char) : List (List Char) :=
  (wordTokenize (text.map Char.toLower)).filter fun w =>
    isAlphaTok w && !stopWords.contains w && decide (3 < w.length)

/-- First-occurrence deduplication, mirroring the insertion order of the keys
of `collections.Counter` (a Python dict keeps first-insertion order). -/
def dedupFirstAux : List (List Char) → List (List Char) → List (List Char)
  | _, [] => []
  | seen, w :: ws =>
    if seen.contains w then dedupFirstAux seen ws
    else w :: dedupFirstAux (w :: seen) ws

/-- Distinct elements of a list in order of first occurrence. -/
def dedupFirst (l : List (List Char)) : List (List Char) :=
  dedupFirstAux [] l

/-- Ranking order used by `Counter.most_common`: larger count first; on equal
counts, earlier first occurrence first.  `most_common` is a stable descending
sort by count over the first-insertion-ordered keys, which on distinct keys
coincides with sorting by this total order. -/
def kwRel (ws : List (List Char)) (a b : List Char) : Prop :=
  ws.count b < ws.count a ∨
    (ws.count a = ws.count b ∧ ws.indexOf a ≤ ws.indexOf b)

instance (ws : List (List Char)) : DecidableRel (kwRel ws) := fun _ _ =>
  inferInstanceAs (Decidable (_ ∨ _))

/-- `extract_keywords` from `question_generator.py`: filter, count with
`Counter`, return the `top_k` most common words. -/
def extract_keywords (text : List Char) (top_k : Nat) : List (List Char) :=
  let ws := eligibleWords text
  (List.insertionSort (kwRel ws) (dedupFirst ws)).take top_k

/-- Model of `random.sample(xs, k)` (k ≤ xs.length draws without
replacement): each head seed modulo the remaining population size selects the
next element.  Every ordered k-subset is reachable by some seed stream. -/
def randSample {α : Type} : List α → Nat → List Nat → List α
  | _, 0, _ => []
  | [], _ + 1, _ => []
  | x :: xs, k + 1, seeds =>
    let l := x :: xs
    let i := seeds.headD 0 % l.length
    l.getD i x :: randSample (l.eraseIdx i) k seeds.tail

/-- Model of `random.shuffle`: a full sample without replacement; every
permutation is reachable by some seed stream. -/
def randShuffle {α : Type} (l : List α) (seed : List Nat) : List α :=
  randSample l l.length seed

/-- First-occurrence split: `splitFirst pat s = some (a, b)` iff `pat` occurs
in `s`, where `a ++ pat ++ b = s` and `a` is shortest. -/
def splitFirst (pat : List Char) : List Char → Option (List Char × List Char)
  | [] => if pat.isEmpty then some ([], []) else none
  | c :: cs =>
    if pat.isPrefixOf (c :: cs) then some ([], (c :: cs).drop pat.length)
    else
      match splitFirst pat cs with
      | some (a, b) => some (c :: a, b)
      | none => none

/-- Model of Python `s.replace(pat, rep, 1)`: replace the first occurrence of
`pat` (as a substring) by `rep`; if `pat` does not occur, return `s`. -/
def replaceFirst (s pat rep : List Char) : List Char :=
  match splitFirst pat s with
  | some (a, b) => a ++ rep ++ b
  | none => s

/-- Number of (possibly overlapping) positions at which `pat` occurs in `s`. -/
def countSub (s pat : List Char) : Nat :=
  match s with
  | [] => if pat.isEmpty then 1 else 0
  | _ :: cs => (if pat.isPrefixOf s then 1 else 0) + countSub cs pat

/-- The blank marker `_____` used by the fill-blank generator. -/
def marker : List Char := str "_____"

/-- A vocabulary question record (`type`, `prompt`, `keyword`, `difficulty`). -/
structure VocabQ where
  qtype : List Char
  prompt : List Char
  keyword : List Char
  difficulty : List Char
deriving DecidableEq

/-- A fill-in-the-blank question record
(`type`, `prompt`, `answer`, `original_sentence`). -/
structure FillBlankQ where
  qtype : List Char
  prompt : List Char
  answer : List Char
  original_sentence : List Char
deriving DecidableEq

/-- A multiple-choice question record
(`type`, `prompt`, `options`, `correct`, `difficulty`). -/
structure MCQ where
  qtype : List Char
  prompt : List Char
  options : List (List Char)
  correct : List Char
  difficulty : List Char
deriving DecidableEq

/-- A reading-comprehension question record
(`type`, `prompt`, `reference_sentence`, `difficulty`). -/
structure RCQ where
  qtype : List Char
  prompt : List Char
  reference_sentence : List Char
  difficulty : List Char
deriving DecidableEq

/-- `generate_vocabulary_questions`: one question per keyword among the first
`num` of the top `2 * num` ranked keywords. -/
def generate_vocabulary_questions (text : List Char) (num : Nat) : List VocabQ :=
  ((extract_keywords text (num * 2)).take num).map fun kw =>
    { qtype := str "vocabulary"
      prompt := str "What is the meaning of \"" ++ kw ++ str "\"?"
      keyword := kw
      difficulty := str "medium" }

/-- Content words eligible for blanking in `generate_fill_blank_questions`:
alphabetic tokens longer than 3 characters (stopwords are not excluded). -/
def contentWords (s : List Char) : List (List Char) :=
  (wordTokenize s).filter fun w => isAlphaTok w && decide (3 < w.length)

/-- The sentences of the text whose token count exceeds 8, as filtered by
`generate_fill_blank_questions`. -/
def qualifyingSentences (text : List Char) : List (List Char) :=
  (sentTokenize text).filter fun s => decide (8 < (wordTokenize s).length)

/-- The sentence-selection step of `generate_fill_blank_questions`:
`random.sample(sentences, min(num_questions, len(sentences)))`. -/
def select_sentences (text : List Char) (n : Nat) (seed : List Nat) :
    List (List Char) :=
  let qs := qualifyingSentences text
  randSample qs (min n qs.length) seed

/-- Per-sentence loop of `generate_fill_blank_questions`: pick a random
content word (one seed per emitting sentence), blank its first occurrence;
a sentence without content words is skipped. -/
def fillBlankFrom : List (List Char) → List Nat → List FillBlankQ
  | [], _ => []
  | s :: rest, seeds =>
    let cw := contentWords s
    if cw.isEmpty then fillBlankFrom rest seeds
    else
      let w := cw.getD (seeds.headD 0 % cw.length) []
      { qtype := str "fill_blank"
        prompt := replaceFirst s w marker
        answer := w
        original_sentence := s } :: fillBlankFrom rest seeds.tail

/-- `generate_fill_blank_questions`: sample qualifying sentences without
replacement, then blank one random content word per sentence. -/
def generate_fill_blank_questions (text : List Char) (num : Nat)
    (sampleSeed choiceSeeds : List Nat) : List FillBlankQ :=
  fillBlankFrom (select_sentences text num sampleSeed) choiceSeeds

/-- Placeholder distractor name `distractor_<n>`. -/
def distractorName (n : Nat) : List Char :=
  str "distractor_" ++ Nat.toDigits 10 n

/-- The `while len(wrong_answers) < 3` padding loop: append
`distractor_<current length>` until three distractors exist. -/
def padDistractors (l : List (List Char)) : List (List Char) :=
  match l with
  | [] => [distractorName 0, distractorName 1, distractorName 2]
  | [a] => [a, distractorName 1, distractorName 2]
  | [a, b] => [a, b, distractorName 2]
  | l => l

/-- Per-keyword loop of `generate_multiple_choice_questions`: collect up to 3
distractors from the ranked keywords, pad with placeholders, shuffle the four
options (one seed stream per question). -/
def mcFrom (ks : List (List Char)) :
    List (List Char) → List (List Nat) → List MCQ
  | [], _ => []
  | kw :: rest, seeds =>
    let wrong := (ks.filter fun w => w != kw && decide (3 < w.length)).take 3
    let options := randShuffle (kw :: (padDistractors wrong).take 3)
      (seeds.headD [])
    { qtype := str "multiple_choice"
      prompt := str "Which word best fits the context?"
      options := options
      correct := kw
      difficulty := str "medium" } :: mcFrom ks rest seeds.tail

/-- `generate_multiple_choice_questions`: rank the top `3 * num` keywords and
emit one question per keyword among the first `num`. -/
def generate_multiple_choice_questions (text : List Char) (num : Nat)
    (seeds : List (List Nat)) : List MCQ :=
  let keywords := extract_keywords text (num * 3)
  mcFrom keywords (keywords.take num) seeds

/-- `generate_reading_comprehension`: one question for each of the first
`min num sentences` sentences, referencing its first 100 characters plus an
unconditional ellipsis. -/
def generate_reading_comprehension (text : List Char) (num : Nat) :
    List RCQ :=
  let sentences := sentTokenize text
  (List.range (min num sentences.length)).map fun i =>
    { qtype := str "reading_comprehension"
      prompt := str "According to the text, what is the main idea?"
      reference_sentence := (sentences.getD i []).take 100 ++ str "..."
      difficulty := str "medium" }

/-- The aggregated result of `generate_all_questions`. -/
structure AllQuestions where
  vocabulary : List VocabQ
  fill_blank : List FillBlankQ
  multiple_choice : List MCQ
  reading_comprehension : List RCQ
deriving DecidableEq

/-- The default configuration used when `config is None`. -/
def defaultConfig : List (String × Nat) :=
  [("vocabulary", 5), ("fill_blank", 5), ("multiple_choice", 5),
   ("reading_comprehension", 3)]

/-- `generate_all_questions`: use the default config when none is given, then
read the four recognized keys with `config[...]`; a missing recognized key is
a Python `KeyError`, modelled as `Except.error` naming the key. -/
def generate_all_questions (text : List Char)
    (config : Option (List (String × Nat)))
    (sampleSeed choiceSeeds : List Nat) (mcSeeds : List (List Nat)) :
    Except String AllQuestions :=
  let cfg := config.getD defaultConfig
  match cfg.lookup "vocabulary" with
  | none => .error "vocabulary"
  | some v =>
    match cfg.lookup "fill_blank" with
    | none => .error "fill_blank"
    | some f =>
      match cfg.lookup "multiple_choice" with
      | none => .error "multiple_choice"
      | some m =>
        match cfg.lookup "reading_comprehension" with
        | none => .error "reading_comprehension"
        | some r =>
          .ok { vocabulary := generate_vocabulary_questions text v
                fill_blank :=
                  generate_fill_blank_questions text f sampleSeed choiceSeeds
                multiple_choice :=
                  generate_multiple_choice_questions text m mcSeeds
                reading_comprehension :=
                  generate_reading_comprehension text r }

/-! ## Lemmas about the text normalizer -/

theorem mem_collapseWS (l : List Char) : ∀ c ∈ collapseWS l, c ∈ l ∨ c = ' ' := by
  induction l with
  | nil => simp [collapseWS]
  | cons a as ih =>
    intro c hc
    simp only [collapseWS] at hc
    by_cases ha : isSpacePy a
    · simp only [ha, if_true] at hc
      by_cases hh : (collapseWS as).head? = some ' '
      · simp only [hh, if_pos rfl] at hc
        rcases ih c hc with h | h
        · exact Or.inl (List.mem_cons_of_mem _ h)
        · exact Or.inr h
      · simp only [if_neg hh, List.mem_cons] at hc
        rcases hc with rfl | hc
        · exact Or.inr rfl
        · rcases ih c hc with h | h
          · exact Or.inl (List.mem_cons_of_mem _ h)
          · exact Or.inr h
    · simp [ha] at hc
      rcases hc with rfl | hc
      · exact Or.inl (List.mem_cons_self _ _)
      · rcases ih c hc with h | h
        · exact Or.inl (List.mem_cons_of_mem _ h)
        · exact Or.inr h

theorem collapseWS_space (l : List Char) :
    ∀ c ∈ collapseWS l, isSpacePy c → c = ' ' := by
  induction l with
  | nil => simp [collapseWS]
  | cons a as ih =>
    intro c hc hcs
    simp only [collapseWS] at hc
    by_cases ha : isSpacePy a
    · simp only [ha, if_true] at hc
      by_cases hh : (collapseWS as).head? = some ' '
      · simp only [hh, if_pos rfl] at hc
        exact ih c hc hcs
      · simp only [if_neg hh, List.mem_cons] at hc
        rcases hc with rfl | hc
        · rfl
        · exact ih c hc hcs
    · simp [ha] at hc
      rcases hc with rfl | hc
      · exact absurd hcs (by simp [ha])
      · exact ih c hc hcs

theorem collapseWS_chain (l : List Char) :
    List.Chain' (fun a b => ¬(isSpacePy a ∧ isSpacePy b)) (collapseWS l) := by
  induction l with
  | nil => simp [collapseWS]
  | cons a as ih =>
    simp only [collapseWS]
    by_cases ha : isSpacePy a
    · by_cases hh : (collapseWS as).head? = some ' '
      · simpa [ha, hh] using ih
      · simp only [ha, if_true, if_neg hh]
        refine List.chain'_cons'.mpr ⟨?_, ih⟩
        intro y hy hcon
        have hmem : y ∈ collapseWS as := List.mem_of_mem_head? hy
        have : y = ' ' := collapseWS_space as y hmem hcon.2
        subst this
        exact hh (Option.mem_def.mp hy)
    · simp only [ha, if_false]
      refine List.chain'_cons'.mpr ⟨?_, ih⟩
      intro y _ hcon
      exact absurd hcon.1 (by simp [ha])

theorem collapseWS_eq_self (l : List Char)
    (h1 : ∀ c ∈ l, isSpacePy c → c = ' ')
    (h2 : List.Chain' (fun a b => ¬(isSpacePy a ∧ isSpacePy b)) l) :
    collapseWS l = l := by
  induction l with
  | nil => rfl
  | cons a as ih =>
    have ih' : collapseWS as = as :=
      ih (fun c hc => h1 c (List.mem_cons_of_mem _ hc)) h2.tail
    simp only [collapseWS, ih']
    by_cases ha : isSpacePy a
    · have ha' : a = ' ' := h1 a (List.mem_cons_self _ _) ha
      subst ha'
      have hh : as.head? ≠ some ' ' := by
        intro h
        cases as with
        | nil => simp at h
        | cons b bs =>
          simp only [List.head?_cons, Option.some.injEq] at h
          subst h
          exact (List.chain'_cons.mp h2).1 ⟨by decide, by decide⟩
      simp [ha, hh]
    · simp [ha]

theorem mem_stripSpecial (l : List Char) :
    ∀ c ∈ stripSpecial l,
      c = ' ' ∨ (c ∈ l ∧ (isWordCharPy c || isSpacePy c || isKeptPunct c)) := by
  intro c hc
  simp only [stripSpecial, List.mem_map] at hc
  obtain ⟨d, hd, hdc⟩ := hc
  by_cases h : isWordCharPy d || isSpacePy d || isKeptPunct d
  · simp only [h, if_true] at hdc
    subst hdc
    exact Or.inr ⟨hd, h⟩
  · simp only [h, if_false] at hdc
    exact Or.inl hdc.symm

theorem stripSpecial_eq_self (l : List Char) (h : ∀ c ∈ l, isCleanChar c) :
    stripSpecial l = l := by
  induction l with
  | nil => rfl
  | cons a as ih =>
    have ha := h a (List.mem_cons_self _ _)
    have hkeep : (isWordCharPy a || isSpacePy a || isKeptPunct a) = true := by
      simp only [isCleanChar, Bool.or_eq_true] at ha
      rcases ha with (hw | hp) | hs
      · simp [hw]
      · simp [hp]
      · have hs' : a = ' ' := of_decide_eq_true hs
        subst hs'
        simp [isSpacePy]
    simp only [stripSpecial, List.map_cons, hkeep, if_true]
    exact congrArg _ (ih fun c hc => h c (List.mem_cons_of_mem _ hc))

theorem head_dropWhile_false (p : Char → Bool) (l : List Char) :
    ∀ c, (l.dropWhile p).head? = some c → p c = false := by
  induction l with
  | nil => simp
  | cons a as ih =>
    intro c hc
    by_cases hp : p a
    · rw [List.dropWhile_cons, if_pos hp] at hc
      exact ih c hc
    · rw [List.dropWhile_cons, if_neg hp] at hc
      simp only [List.head?_cons, Option.some.injEq] at hc
      subst hc
      exact Bool.eq_false_iff.mpr hp

theorem dropWhile_eq_self_of_head (p : Char → Bool) (l : List Char)
    (h : ∀ c, l.head? = some c → p c = false) : l.dropWhile p = l := by
  cases l with
  | nil => rfl
  | cons a as =>
    rw [List.dropWhile_cons, if_neg]
    simp [h a rfl]

theorem chain_dropWhile {R : Char → Char → Prop} (p : Char → Bool)
    (l : List Char) (h : List.Chain' R l) :
    List.Chain' R (l.dropWhile p) := by
  induction l with
  | nil => simp
  | cons a as ih =>
    by_cases hp : p a
    · rw [List.dropWhile_cons, if_pos hp]
      exact ih h.tail
    · rwa [List.dropWhile_cons, if_neg hp]

theorem dropWhile_suffix_decomp (p : Char → Bool) (l : List Char) :
    ∃ t, t ++ l.dropWhile p = l := by
  induction l with
  | nil => exact ⟨[], rfl⟩
  | cons a as ih =>
    by_cases hp : p a
    · obtain ⟨t, ht⟩ := ih
      exact ⟨a :: t, by simp [List.dropWhile_cons, hp, ht]⟩
    · exact ⟨[], by simp [List.dropWhile_cons, hp]⟩

theorem mem_pyStrip (l : List Char) : ∀ c ∈ pyStrip l, c ∈ l := by
  intro c hc
  simp only [pyStrip, List.mem_reverse] at hc
  have hc2 : c ∈ (l.dropWhile isSpacePy).reverse :=
    (List.dropWhile_sublist _).mem hc
  rw [List.mem_reverse] at hc2
  exact (List.dropWhile_sublist _).mem hc2

theorem pyStrip_chain {R : Char → Char → Prop}
    (hsym : ∀ a b, R a b → R b a) (l : List Char)
    (h : List.Chain' R l) : List.Chain' R (pyStrip l) := by
  have h1 : List.Chain' R (l.dropWhile isSpacePy) := chain_dropWhile _ _ h
  have h2 : List.Chain' R (l.dropWhile isSpacePy).reverse :=
    List.chain'_reverse.mpr (h1.imp fun a b hab => hsym a b hab)
  have h3 : List.Chain' R ((l.dropWhile isSpacePy).reverse.dropWhile isSpacePy) :=
    chain_dropWhile _ _ h2
  exact List.chain'_reverse.mpr (h3.imp fun a b hab => hsym a b hab)

theorem pyStrip_head (l : List Char) :
    ∀ c, (pyStrip l).head? = some c → isSpacePy c = false := by
  intro c hc
  rw [pyStrip, List.head?_reverse] at hc
  obtain ⟨t, ht⟩ := dropWhile_suffix_decomp isSpacePy (l.dropWhile isSpacePy).reverse
  set z := (l.dropWhile isSpacePy).reverse.dropWhile isSpacePy with hz
  cases hzz : z with
  | nil => rw [hzz] at hc; simp at hc
  | cons b bs =>
    have hsome : z.getLast?.isSome = true := by
      rw [List.getLast?_isSome, hzz]
      simp
    have hlast : ((l.dropWhile isSpacePy).reverse).getLast? = z.getLast? := by
      rw [← ht, List.getLast?_append, Option.or_of_isSome hsome]
    rw [← hlast, List.getLast?_reverse] at hc
    exact head_dropWhile_false isSpacePy l c hc

theorem pyStrip_getLast (l : List Char) :
    ∀ c, (pyStrip l).getLast? = some c → isSpacePy c = false := by
  intro c hc
  rw [pyStrip, List.getLast?_reverse] at hc
  exact head_dropWhile_false isSpacePy _ c hc

theorem pyStrip_eq_self (l : List Char)
    (h1 : ∀ c, l.head? = some c → isSpacePy c = false)
    (h2 : ∀ c, l.getLast? = some c → isSpacePy c = false) :
    pyStrip l = l := by
  rw [pyStrip, dropWhile_eq_self_of_head _ _ h1,
    dropWhile_eq_self_of_head _ _ (fun c hc =>
      h2 c (by rwa [List.head?_reverse] at hc)),
    List.reverse_reverse]

theorem clean_text_props (l : List Char) :
    (∀ c ∈ clean_text l, isCleanChar c) ∧
    List.Chain' (fun a b => ¬(isSpacePy a ∧ isSpacePy b)) (clean_text l) ∧
    (clean_text l).head? ≠ some ' ' ∧
    (clean_text l).getLast? ≠ some ' ' := by
  refine ⟨?_, ?_, ?_, ?_⟩
  · intro c hc
    have hc3 := mem_pyStrip _ c hc
    rcases mem_collapseWS _ c hc3 with hc2 | rfl
    · rcases mem_stripSpecial _ c hc2 with rfl | ⟨hc1, hkind⟩
      · simp [isCleanChar]
      · simp only [Bool.or_eq_true] at hkind
        rcases hkind with (hw | hs) | hp
        · simp [isCleanChar, hw]
        · have := collapseWS_space l c hc1 hs
          subst this
          simp [isCleanChar]
        · simp [isCleanChar, hp]
    · simp [isCleanChar]
  · exact pyStrip_chain (fun a b hab h => hab ⟨h.2, h.1⟩) _ (collapseWS_chain _)
  · intro h
    have := pyStrip_head _ ' ' h
    simp [isSpacePy] at this
  · intro h
    have := pyStrip_getLast _ ' ' h
    simp [isSpacePy] at this

/-- C6 counterexample: the claim says characters outside the kept set are
removed, so `clean_text "a@b"` would be `"ab"`; the code replaces `@` by a
space and yields `"a b"`.  (Kept underscores, e.g. `clean_text "_" = "_"`,
contradict the claimed `[A-Za-z0-9 .,!?;:'"-]` character set as well.) -/
theorem c6_counterexample :
    clean_text (str "a@b") = str "a b" ∧ str "a b" ≠ str "ab" ∧
    clean_text (str "_") = str "_" := by
  refine ⟨by decide, by decide, by decide⟩

/-- C6 (amended): `clean_text` is total and returns a string in which every
run of whitespace is collapsed to a single space, leading and trailing spaces
are trimmed, and every character is a word character (letter, digit or
underscore), one of `. , ! ? ; : ' " -`, or a space — characters outside that
set are replaced by spaces (and the spaces then collapsed), not deleted. -/
theorem c6_clean_text_normal_form (l : List Char) :
    (∀ c ∈ clean_text l, isCleanChar c) ∧
    List.Chain' (fun a b => ¬(a = ' ' ∧ b = ' ')) (clean_text l) ∧
    (clean_text l).head? ≠ some ' ' ∧
    (clean_text l).getLast? ≠ some ' ' := by
  obtain ⟨h1, h2, h3, h4⟩ := clean_text_props l
  refine ⟨h1, ?_, h3, h4⟩
  refine h2.imp fun a b hab h => ?_
  obtain ⟨rfl, rfl⟩ := h
  exact hab ⟨by decide, by decide⟩

/-- C6 witness: the amended theorem evaluated at a concrete input. -/
theorem c6_witness :
    (∀ c ∈ clean_text (str "  He said:  hi@x! "), isCleanChar c) ∧
    List.Chain' (fun a b => ¬(a = ' ' ∧ b = ' '))
      (clean_text (str "  He said:  hi@x! ")) ∧
    (clean_text (str "  He said:  hi@x! ")).head? ≠ some ' ' ∧
    (clean_text (str "  He said:  hi@x! ")).getLast? ≠ some ' ' :=
  c6_clean_text_normal_form (str "  He said:  hi@x! ")

/-- C10: `clean_text` is idempotent. -/
theorem c10_clean_text_idempotent (l : List Char) :
    clean_text (clean_text l) = clean_text l := by
  obtain ⟨h1, h2, h3, h4⟩ := clean_text_props l
  have hsp : ∀ c ∈ clean_text l, isSpacePy c → c = ' ' := by
    intro c hc hcs
    have hclean := h1 c hc
    have : ((((c = ' ' ∨ c = '\t') ∨ c = '\n') ∨ c = '\r') ∨ c = '\x0b') ∨
        c = '\x0c' := by
      simpa [isSpacePy] using hcs
    rcases this with ((((rfl | rfl) | rfl) | rfl) | rfl) | rfl
    · rfl
    · exact absurd hclean (by decide)
    · exact absurd hclean (by decide)
    · exact absurd hclean (by decide)
    · exact absurd hclean (by decide)
    · exact absurd hclean (by decide)
  have hhead : ∀ c, (clean_text l).head? = some c → isSpacePy c = false := by
    intro c hc
    by_contra hne
    have hcs : isSpacePy c := by simpa using hne
    have : c = ' ' := hsp c (List.mem_of_mem_head? (Option.mem_def.mpr hc)) hcs
    subst this
    exact h3 hc
  have hlast : ∀ c, (clean_text l).getLast? = some c → isSpacePy c = false := by
    intro c hc
    by_contra hne
    have hcs : isSpacePy c := by simpa using hne
    have hmem : c ∈ clean_text l := List.mem_of_mem_getLast? hc
    have : c = ' ' := hsp c hmem hcs
    subst this
    exact h4 hc
  have hcol : collapseWS (clean_text l) = clean_text l :=
    collapseWS_eq_self _ hsp h2
  have hss : stripSpecial (clean_text l) = clean_text l :=
    stripSpecial_eq_self _ h1
  have hps : pyStrip (clean_text l) = clean_text l :=
    pyStrip_eq_self _ hhead hlast
  calc clean_text (clean_text l)
      = pyStrip (collapseWS (stripSpecial (collapseWS (clean_text l)))) := rfl
    _ = clean_text l := by rw [hcol, hss, hcol, hps]

/-! ## Lemmas for the reading-comprehension generator -/

theorem range_min_map {α β : Type} (f : α → β) (d : α) :
    ∀ (l : List α) (n : Nat),
      (List.range (min n l.length)).map (fun i => f (l.getD i d)) =
        (l.take n).map f := by
  intro l
  induction l with
  | nil => intro n; simp
  | cons x xs ih =>
    intro n
    cases n with
    | zero => simp
    | succ n =>
      rw [List.length_cons, Nat.succ_min_succ, List.range_succ_eq_map,
        List.map_cons, List.map_map, List.take_succ_cons, List.map_cons]
      refine congrArg₂ _ rfl ?_
      have : ((fun i => f ((x :: xs).getD i d)) ∘ Nat.succ) =
          fun i => f (xs.getD i d) := by
        funext i
        simp [List.getD_cons_succ]
      rw [this, ih n]

/-- C8: `generate_reading_comprehension` emits one question per sentence for
the first `count` sentences in document order (all of them when fewer exist,
with no minimum-length filter), each with the fixed prompt and with
`reference_sentence` equal to the first 100 characters of the sentence
followed by `...` — the ellipsis appended even for short sentences. -/
theorem c8_reading_comprehension_spec (text : List Char) (num : Nat) :
    generate_reading_comprehension text num =
      ((sentTokenize text).take num).map fun s =>
        { qtype := str "reading_comprehension"
          prompt := str "According to the text, what is the main idea?"
          reference_sentence := s.take 100 ++ str "..."
          difficulty := str "medium" } := by
  unfold generate_reading_comprehension
  exact range_min_map
    (fun s => ({ qtype := str "reading_comprehension"
                 prompt := str "According to the text, what is the main idea?"
                 reference_sentence := s.take 100 ++ str "..."
                 difficulty := str "medium" } : RCQ))
    [] (sentTokenize text) num

/-! ## Lemmas for the keyword ranker -/

theorem dedupFirstAux_not_seen :
    ∀ (l seen : List (List Char)), ∀ w ∈ dedupFirstAux seen l,
      seen.contains w = false := by
  intro l
  induction l with
  | nil => intro seen w hw; simp [dedupFirstAux] at hw
  | cons v vs ih =>
    intro seen w hw
    simp only [dedupFirstAux] at hw
    by_cases hv : seen.contains v
    · rw [if_pos hv] at hw
      exact ih seen w hw
    · rw [if_neg hv] at hw
      rcases List.mem_cons.mp hw with rfl | hw
      · exact Bool.eq_false_iff.mpr hv
      · have := ih (v :: seen) _ hw
        simp only [List.contains_cons, Bool.or_eq_false_iff] at this
        exact this.2

theorem dedupFirstAux_nodup :
    ∀ (l seen : List (List Char)), (dedupFirstAux seen l).Nodup := by
  intro l
  induction l with
  | nil => intro seen; simp [dedupFirstAux]
  | cons v vs ih =>
    intro seen
    simp only [dedupFirstAux]
    by_cases hv : seen.contains v
    · rw [if_pos hv]; exact ih seen
    · rw [if_neg hv]
      refine List.nodup_cons.mpr ⟨?_, ih (v :: seen)⟩
      intro hmem
      have := dedupFirstAux_not_seen vs (v :: seen) v hmem
      simp at this

theorem dedupFirstAux_subset :
    ∀ (l seen : List (List Char)), ∀ w ∈ dedupFirstAux seen l, w ∈ l := by
  intro l
  induction l with
  | nil => intro seen w hw; simp [dedupFirstAux] at hw
  | cons v vs ih =>
    intro seen w hw
    simp only [dedupFirstAux] at hw
    by_cases hv : seen.contains v
    · rw [if_pos hv] at hw
      exact List.mem_cons_of_mem _ (ih seen w hw)
    · rw [if_neg hv] at hw
      rcases List.mem_cons.mp hw with rfl | hw
      · exact List.mem_cons_self _ _
      · exact List.mem_cons_of_mem _ (ih (v :: seen) w hw)

theorem dedupFirstAux_complete :
    ∀ (l seen : List (List Char)), ∀ w ∈ l,
      w ∈ dedupFirstAux seen l ∨ seen.contains w = true := by
  intro l
  induction l with
  | nil => intro seen w hw; simp at hw
  | cons v vs ih =>
    intro seen w hw
    simp only [dedupFirstAux]
    rcases List.mem_cons.mp hw with rfl | hw
    · by_cases hv : seen.contains w
      · exact Or.inr hv
      · rw [if_neg hv]
        exact Or.inl (List.mem_cons_self _ _)
    · by_cases hv : seen.contains v
      · rw [if_pos hv]
        exact ih seen w hw
      · rw [if_neg hv]
        rcases ih (v :: seen) w hw with h | h
        · exact Or.inl (List.mem_cons_of_mem _ h)
        · simp only [List.contains_cons, Bool.or_eq_true] at h
          rcases h with h | h
          · have hv' : w = v := by simpa using h
            subst hv'
            exact Or.inl (List.mem_cons_self _ _)
          · exact Or.inr h

theorem dedupFirst_nodup (l : List (List Char)) : (dedupFirst l).Nodup :=
  dedupFirstAux_nodup l []

theorem dedupFirst_subset (l : List (List Char)) :
    ∀ w ∈ dedupFirst l, w ∈ l :=
  dedupFirstAux_subset l []

theorem dedupFirst_complete (l : List (List Char)) :
    ∀ w ∈ l, w ∈ dedupFirst l := by
  intro w hw
  rcases dedupFirstAux_complete l [] w hw with h | h
  · exact h
  · simp [List.contains] at h

theorem kwRel_total (ws : List (List Char)) (a b : List Char) :
    kwRel ws a b ∨ kwRel ws b a := by
  unfold kwRel
  rcases Nat.lt_trichotomy (ws.count a) (ws.count b) with h | h | h
  · exact Or.inr (Or.inl h)
  · rcases Nat.le_total (ws.indexOf a) (ws.indexOf b) with hi | hi
    · exact Or.inl (Or.inr ⟨h, hi⟩)
    · exact Or.inr (Or.inr ⟨h.symm, hi⟩)
  · exact Or.inl (Or.inl h)

theorem kwRel_trans (ws : List (List Char)) (a b c : List Char)
    (h1 : kwRel ws a b) (h2 : kwRel ws b c) : kwRel ws a c := by
  unfold kwRel at h1 h2 ⊢
  rcases h1 with h1 | ⟨h1e, h1i⟩ <;> rcases h2 with h2 | ⟨h2e, h2i⟩
  · exact Or.inl (h2.trans h1)
  · exact Or.inl (h2e ▸ h1)
  · exact Or.inl (h1e ▸ h2)
  · exact Or.inr ⟨h1e.trans h2e, h1i.trans h2i⟩

theorem extract_keywords_sorted (text : List Char) (k : Nat) :
    List.Pairwise (kwRel (eligibleWords text)) (extract_keywords text k) := by
  haveI : IsTotal (List Char) (kwRel (eligibleWords text)) :=
    ⟨kwRel_total _⟩
  haveI : IsTrans (List Char) (kwRel (eligibleWords text)) :=
    ⟨kwRel_trans _⟩
  exact List.Pairwise.sublist (List.take_sublist _ _)
    (List.sorted_insertionSort (kwRel (eligibleWords text)) _)

theorem mem_extract_keywords (text : List Char) (k : Nat) :
    ∀ w ∈ extract_keywords text k, w ∈ eligibleWords text := by
  intro w hw
  have hw2 : w ∈ List.insertionSort (kwRel (eligibleWords text))
      (dedupFirst (eligibleWords text)) :=
    (List.take_sublist _ _).mem hw
  rw [List.mem_insertionSort] at hw2
  exact dedupFirst_subset _ w hw2

theorem mem_eligibleWords_props (text : List Char) :
    ∀ w ∈ eligibleWords text,
      isAlphaTok w ∧ w ∉ stopWords ∧ 3 < w.length := by
  intro w hw
  simp only [eligibleWords, List.mem_filter, Bool.and_eq_true,
    Bool.not_eq_true', decide_eq_true_eq] at hw
  refine ⟨hw.2.1.1, ?_, hw.2.2⟩
  intro hmem
  have : stopWords.contains w = true := by
    simp [List.contains, List.elem_iff, hmem]
  rw [this] at hw
  exact absurd hw.2.1.2 (by simp)

theorem extract_keywords_nodup (text : List Char) (k : Nat) :
    (extract_keywords text k).Nodup := by
  have hperm := List.perm_insertionSort (kwRel (eligibleWords text))
    (dedupFirst (eligibleWords text))
  exact (List.take_sublist _ _).nodup (hperm.symm.nodup (dedupFirst_nodup _))

theorem extract_keywords_length (text : List Char) (k : Nat) :
    (extract_keywords text k).length ≤ k := by
  unfold extract_keywords
  rw [List.length_take]
  exact min_le_left _ _

/-- C3: the keyword ranker keeps only non-stopword alphabetic tokens longer
than 3 characters (of the lowercased text), returns at most `top_k` terms
without duplicates, sorted by descending frequency with ties broken by first
occurrence (`kwRel`), and maps empty text to the empty list.  Determinism
across repeated calls is inherent: `extract_keywords` is a pure function. -/
theorem c3_extract_keywords_spec (text : List Char) (k : Nat) :
    (extract_keywords text k).length ≤ k ∧
    (extract_keywords text k).Nodup ∧
    List.Pairwise (kwRel (eligibleWords text)) (extract_keywords text k) ∧
    (∀ w ∈ extract_keywords text k,
      isAlphaTok w ∧ w ∉ stopWords ∧ 3 < w.length) ∧
    extract_keywords [] k = [] := by
  refine ⟨extract_keywords_length text k, extract_keywords_nodup text k,
    extract_keywords_sorted text k, ?_, ?_⟩
  · intro w hw
    exact mem_eligibleWords_props text w (mem_extract_keywords text k w hw)
  · simp [extract_keywords, eligibleWords, wordTokenize, wordTokAux,
      dedupFirst, dedupFirstAux]

/-- C3 witness: the specification evaluated at a concrete text. -/
theorem c3_witness :
    (extract_keywords (str "Wind wind mill mill lake") 2).length ≤ 2 ∧
    (extract_keywords (str "Wind wind mill mill lake") 2).Nodup ∧
    List.Pairwise (kwRel (eligibleWords (str "Wind wind mill mill lake")))
      (extract_keywords (str "Wind wind mill mill lake") 2) ∧
    (∀ w ∈ extract_keywords (str "Wind wind mill mill lake") 2,
      isAlphaTok w ∧ w ∉ stopWords ∧ 3 < w.length) ∧
    extract_keywords [] 2 = [] :=
  c3_extract_keywords_spec (str "Wind wind mill mill lake") 2

/-! ## Lemmas for random sampling -/

theorem getD_mem {α : Type} (l : List α) (i : Nat) (d : α)
    (h : i < l.length) : l.getD i d ∈ l := by
  rw [List.getD_eq_getElem l d h]
  exact List.getElem_mem h

theorem randSample_subset {α : Type} :
    ∀ (k : Nat) (l : List α) (s : List Nat), ∀ a ∈ randSample l k s, a ∈ l := by
  intro k
  induction k with
  | zero => intro l s a ha; simp [randSample] at ha
  | succ k ih =>
    intro l s a ha
    cases l with
    | nil => simp [randSample] at ha
    | cons x xs =>
      simp only [randSample] at ha
      rcases List.mem_cons.mp ha with rfl | ha
      · exact getD_mem _ _ _ (Nat.mod_lt _ (by simp))
      · exact (List.eraseIdx_sublist _ _).mem (ih _ _ a ha)

theorem randSample_length {α : Type} :
    ∀ (k : Nat) (l : List α) (s : List Nat),
      (randSample l k s).length = min k l.length := by
  intro k
  induction k with
  | zero => intro l s; simp [randSample]
  | succ k ih =>
    intro l s
    cases l with
    | nil => simp [randSample]
    | cons x xs =>
      simp only [randSample, List.length_cons, ih]
      rw [List.length_eraseIdx]
      have hlt : (s.headD 0) % (x :: xs).length < (x :: xs).length :=
        Nat.mod_lt _ (by simp)
      simp only [List.length_cons] at hlt ⊢
      rw [if_pos hlt]
      omega

theorem mem_getD_or_eraseIdx {α : Type} :
    ∀ (l : List α) (i : Nat) (h : i < l.length), ∀ a ∈ l,
      a = l[i] ∨ a ∈ l.eraseIdx i := by
  intro l
  induction l with
  | nil => intro i hi; simp at hi
  | cons x xs ih =>
    intro i hi a ha
    cases i with
    | zero =>
      rcases List.mem_cons.mp ha with rfl | ha
      · exact Or.inl rfl
      · exact Or.inr (by simpa [List.eraseIdx_cons_zero] using ha)
    | succ i =>
      have hi' : i < xs.length := by simpa using hi
      rcases List.mem_cons.mp ha with rfl | ha
      · exact Or.inr (by simp [List.eraseIdx_cons_succ])
      · rcases ih i hi' a ha with h | h
        · exact Or.inl (by simpa using h)
        · exact Or.inr (by simp [List.eraseIdx_cons_succ, h])

theorem randSample_complete {α : Type} :
    ∀ (k : Nat) (l : List α) (s : List Nat), l.length ≤ k →
      ∀ a ∈ l, a ∈ randSample l k s := by
  intro k
  induction k with
  | zero =>
    intro l s hl a ha
    rw [Nat.le_zero, List.length_eq_zero] at hl
    subst hl
    simp at ha
  | succ k ih =>
    intro l s hl a ha
    cases l with
    | nil => simp at ha
    | cons x xs =>
      simp only [randSample]
      have hlt : (s.headD 0) % (x :: xs).length < (x :: xs).length :=
        Nat.mod_lt _ (by simp)
      rcases mem_getD_or_eraseIdx (x :: xs) _ hlt a ha with h | h
      · rw [List.getD_eq_getElem _ x hlt]
        exact h ▸ List.mem_cons_self _ _
      · refine List.mem_cons_of_mem _ (ih _ s.tail ?_ a h)
        rw [List.length_eraseIdx, if_pos hlt]
        simp only [List.length_cons] at hl ⊢
        omega

theorem perm_cons_eraseIdx {α : Type} :
    ∀ (l : List α) (i : Nat) (h : i < l.length),
      l.Perm (l[i] :: l.eraseIdx i) := by
  intro l
  induction l with
  | nil => intro i hi; simp at hi
  | cons x xs ih =>
    intro i hi
    cases i with
    | zero => simp [List.eraseIdx_cons_zero]
    | succ i =>
      have hi' : i < xs.length := by simpa using hi
      have step : (x :: xs).Perm (x :: xs[i] :: xs.eraseIdx i) :=
        (ih i hi').cons x
      refine step.trans ?_
      simpa [List.eraseIdx_cons_succ] using List.Perm.swap _ _ _

theorem randSample_perm_of_length {α : Type} :
    ∀ (n : Nat) (l : List α) (s : List Nat), l.length = n →
      (randSample l n s).Perm l := by
  intro n
  induction n with
  | zero =>
    intro l s hl
    rw [List.length_eq_zero] at hl
    subst hl
    simp [randSample]
  | succ n ih =>
    intro l s hl
    cases l with
    | nil => simp at hl
    | cons x xs =>
      simp only [randSample]
      have hlt : (s.headD 0) % (x :: xs).length < (x :: xs).length :=
        Nat.mod_lt _ (by simp)
      have hlen : ((x :: xs).eraseIdx ((s.headD 0) % (x :: xs).length)).length
          = n := by
        rw [List.length_eraseIdx, if_pos hlt]
        simpa using hl
      have hrec := (ih _ s.tail hlen).cons ((x :: xs).getD
        ((s.headD 0) % (x :: xs).length) x)
      refine hrec.trans ?_
      rw [List.getD_eq_getElem _ x hlt]
      exact (perm_cons_eraseIdx _ _ hlt).symm

theorem randShuffle_perm {α : Type} (l : List α) (s : List Nat) :
    (randShuffle l s).Perm l :=
  randSample_perm_of_length l.length l s rfl

/-- C7: the sentence selector returns at most `n` sentences, each a sentence
of the text with more than 8 word tokens (the tokenization used for
keywords); when at most `n` sentences qualify, every qualifying sentence is
returned. -/
theorem c7_select_sentences_spec (text : List Char) (n : Nat)
    (seed : List Nat) :
    (select_sentences text n seed).length ≤ n ∧
    (∀ s ∈ select_sentences text n seed,
      s ∈ sentTokenize text ∧ 8 < (wordTokenize s).length) ∧
    ((qualifyingSentences text).length ≤ n →
      ∀ s ∈ qualifyingSentences text, s ∈ select_sentences text n seed) := by
  refine ⟨?_, ?_, ?_⟩
  · show (randSample _ _ _).length ≤ n
    rw [randSample_length]
    omega
  · intro s hs
    have hq : s ∈ qualifyingSentences text := randSample_subset _ _ _ s hs
    have := List.mem_filter.mp hq
    exact ⟨this.1, by simpa using this.2⟩
  · intro hle s hs
    refine randSample_complete _ _ _ ?_ s hs
    omega

/-- C7 witness: at a concrete text whose single qualifying sentence is
returned. -/
theorem c7_witness :
    str "Aaaa bbbb cccc dddd eeee ffff gggg hhhh iiii." ∈
      select_sentences
        (str "Aaaa bbbb cccc dddd eeee ffff gggg hhhh iiii. Sh ort.") 2 [0] :=
  (c7_select_sentences_spec
    (str "Aaaa bbbb cccc dddd eeee ffff gggg hhhh iiii. Sh ort.") 2 [0]).2.2
    (by decide) _ (by decide)

/-! ## Length lemmas for the synthesizers -/

theorem fillBlankFrom_length_le :
    ∀ (ss : List (List Char)) (cs : List Nat),
      (fillBlankFrom ss cs).length ≤ ss.length := by
  intro ss
  induction ss with
  | nil => intro cs; simp [fillBlankFrom]
  | cons s rest ih =>
    intro cs
    simp only [fillBlankFrom]
    by_cases h : (contentWords s).isEmpty
    · rw [if_pos h]
      exact (ih cs).trans (by simp)
    · rw [if_neg h]
      simpa using ih cs.tail

theorem mcFrom_length (ks : List (List Char)) :
    ∀ (sub : List (List Char)) (seeds : List (List Nat)),
      (mcFrom ks sub seeds).length = sub.length := by
  intro sub
  induction sub with
  | nil => intro seeds; simp [mcFrom]
  | cons kw rest ih =>
    intro seeds
    simp only [mcFrom, List.length_cons, ih]

/-- C9: the synthesis stage is total: on empty text `generate_all_questions`
returns (never raises) an all-empty result for every seed stream, and each
synthesizer under-fills rather than failing — it emits at most the requested
number of questions (the vocabulary generator additionally at most one
question per distinct eligible keyword). -/
theorem c9_synthesis_total (text : List Char) (n : Nat)
    (sampleSeed choiceSeeds : List Nat) (mcSeeds : List (List Nat)) :
    generate_all_questions [] none sampleSeed choiceSeeds mcSeeds =
      .ok ⟨[], [], [], []⟩ ∧
    (generate_vocabulary_questions text n).length ≤ n ∧
    (generate_vocabulary_questions text n).length ≤
      (dedupFirst (eligibleWords text)).length ∧
    (generate_fill_blank_questions text n sampleSeed choiceSeeds).length ≤ n ∧
    (generate_multiple_choice_questions text n mcSeeds).length ≤ n ∧
    (generate_reading_comprehension text n).length ≤ n := by
  refine ⟨rfl, ?_, ?_, ?_, ?_, ?_⟩
  · simp only [generate_vocabulary_questions, List.length_map,
      List.length_take, extract_keywords]
    omega
  · simp only [generate_vocabulary_questions, List.length_map,
      List.length_take, extract_keywords,
      List.length_insertionSort]
    omega
  · refine (fillBlankFrom_length_le _ _).trans ?_
    show (randSample _ _ _).length ≤ n
    rw [randSample_length]
    omega
  · simp only [generate_multiple_choice_questions, mcFrom_length,
      List.length_take, extract_keywords]
    omega
  · simp only [generate_reading_comprehension, List.length_map,
      List.length_range]
    omega

/-! ## Lemmas for first-occurrence replacement and the blank marker -/

theorem splitFirst_cons (pat : List Char) (c : Char) (cs : List Char) :
    splitFirst pat (c :: cs) =
      if pat.isPrefixOf (c :: cs) then some ([], (c :: cs).drop pat.length)
      else
        match splitFirst pat cs with
        | some (a, b) => some (c :: a, b)
        | none => none := rfl

theorem countSub_cons (c : Char) (cs pat : List Char) :
    countSub (c :: cs) pat =
      (if pat.isPrefixOf (c :: cs) then 1 else 0) + countSub cs pat := rfl

theorem isPrefixOf_iff_exists (p : List Char) :
    ∀ l : List Char, p.isPrefixOf l = true ↔ ∃ t, p ++ t = l := by
  induction p with
  | nil =>
    intro l
    simp [List.isPrefixOf]
  | cons a as ih =>
    intro l
    cases l with
    | nil =>
      simp [List.isPrefixOf]
    | cons b bs =>
      simp only [List.isPrefixOf, Bool.and_eq_true, beq_iff_eq, ih bs]
      constructor
      · rintro ⟨rfl, t, rfl⟩
        exact ⟨t, rfl⟩
      · rintro ⟨t, ht⟩
        rw [List.cons_append] at ht
        injection ht with h1 h2
        exact ⟨h1, t, h2⟩

theorem splitFirst_eq (pat : List Char) :
    ∀ (s a b : List Char), splitFirst pat s = some (a, b) →
      a ++ pat ++ b = s := by
  intro s
  induction s with
  | nil =>
    intro a b h
    simp only [splitFirst] at h
    by_cases hp : pat.isEmpty
    · rw [if_pos hp] at h
      injection h with h
      injection h with h1 h2
      subst h1; subst h2
      simp [List.isEmpty_iff.mp hp]
    · rw [if_neg hp] at h
      exact absurd h (by simp)
  | cons c cs ih =>
    intro a b h
    rw [splitFirst_cons] at h
    by_cases hp : pat.isPrefixOf (c :: cs)
    · rw [if_pos hp] at h
      obtain ⟨t, ht⟩ := (isPrefixOf_iff_exists pat (c :: cs)).mp hp
      injection h with h
      injection h with h1 h2
      subst h1
      rw [← ht, List.drop_left] at h2
      subst h2
      simpa using ht
    · rw [if_neg hp] at h
      cases hrec : splitFirst pat cs with
      | none => rw [hrec] at h; exact absurd h (by simp)
      | some ab =>
        obtain ⟨a', b'⟩ := ab
        rw [hrec] at h
        injection h with h
        have ha : c :: a' = a := congrArg Prod.fst h
        have hb : b' = b := congrArg Prod.snd h
        subst ha
        subst hb
        simp only [List.cons_append, ih a' b' hrec]

theorem splitFirst_isSome (pat : List Char) (hne : pat ≠ []) :
    ∀ (a b s : List Char), a ++ pat ++ b = s →
      (splitFirst pat s).isSome = true := by
  intro a
  induction a with
  | nil =>
    intro b s hs
    simp only [List.nil_append] at hs
    cases s with
    | nil =>
      cases pat with
      | nil => exact absurd rfl hne
      | cons p ps => simp at hs
    | cons c cs =>
      have hp : pat.isPrefixOf (c :: cs) = true :=
        (isPrefixOf_iff_exists pat _).mpr ⟨b, hs⟩
      rw [splitFirst_cons, if_pos hp]
      rfl
  | cons x a' ih =>
    intro b s hs
    obtain rfl : x :: (a' ++ pat ++ b) = s := by
      rw [← hs]
      simp
    rw [splitFirst_cons]
    by_cases hp : pat.isPrefixOf (x :: (a' ++ pat ++ b))
    · rw [if_pos hp]
      rfl
    · rw [if_neg hp]
      have hrec0 := ih b (a' ++ pat ++ b) rfl
      cases hrec : splitFirst pat (a' ++ pat ++ b) with
      | none => rw [hrec] at hrec0; simp at hrec0
      | some ab =>
        obtain ⟨a0, b0⟩ := ab
        rfl

theorem marker_cons : marker = '_' :: str "____" := rfl

theorem splitFirst_marker_append :
    ∀ (a b : List Char), (∀ c ∈ a, c ≠ '_') →
      splitFirst marker (a ++ marker ++ b) = some (a, b) := by
  intro a
  induction a with
  | nil =>
    intro b _
    show splitFirst marker ('_' :: (str "____" ++ b)) = some ([], b)
    have hp : marker.isPrefixOf ('_' :: (str "____" ++ b)) = true := by
      rw [marker_cons]
      simp [List.isPrefixOf, str]
    rw [splitFirst_cons, if_pos hp]
    have hdrop : ('_' :: (str "____" ++ b)).drop marker.length = b := by
      simp [marker, str]
    rw [hdrop]
  | cons x a' ih =>
    intro b hx
    have hxne : x ≠ '_' := hx x (List.mem_cons_self _ _)
    have hstep : (x :: a') ++ marker ++ b = x :: (a' ++ marker ++ b) := by
      simp
    rw [hstep, splitFirst_cons]
    have hp : marker.isPrefixOf (x :: (a' ++ marker ++ b)) = false := by
      rw [marker_cons]
      simp only [List.isPrefixOf, Bool.and_eq_false_iff]
      left
      simp [Ne.symm hxne]
    rw [hp]
    simp only [Bool.false_eq_true, if_false]
    rw [ih b fun c hc => hx c (List.mem_cons_of_mem _ hc)]

theorem count_marker : marker.count '_' = 5 := by decide

theorem countSub_eq_zero (s : List Char) (h : s.count '_' < 5) :
    countSub s marker = 0 := by
  induction s with
  | nil => rfl
  | cons c cs ih =>
    rw [countSub_cons]
    have hp : marker.isPrefixOf (c :: cs) = false := by
      by_contra hcon
      have hp' : marker.isPrefixOf (c :: cs) = true := by
        simpa using hcon
      obtain ⟨t, ht⟩ := (isPrefixOf_iff_exists marker _).mp hp'
      rw [← ht, List.count_append, count_marker] at h
      omega
    rw [hp]
    simp only [Bool.false_eq_true, if_false, Nat.zero_add]
    refine ih ?_
    rw [List.count_cons] at h
    omega

theorem countSub_append_left (x r : List Char) (h : ∀ c ∈ x, c ≠ '_') :
    countSub (x ++ r) marker = countSub r marker := by
  induction x with
  | nil => rfl
  | cons c x' ih =>
    have hc : c ≠ '_' := h c (List.mem_cons_self _ _)
    rw [List.cons_append, countSub_cons]
    have hp : marker.isPrefixOf (c :: (x' ++ r)) = false := by
      rw [marker_cons]
      simp only [List.isPrefixOf, Bool.and_eq_false_iff]
      left
      simp [Ne.symm hc]
    rw [hp]
    simp only [Bool.false_eq_true, if_false, Nat.zero_add]
    exact ih fun d hd => h d (List.mem_cons_of_mem _ hd)

theorem countSub_marker_one (a b : List Char)
    (ha : ∀ c ∈ a, c ≠ '_') (hb : ∀ c ∈ b, c ≠ '_') :
    countSub (a ++ marker ++ b) marker = 1 := by
  rw [List.append_assoc, countSub_append_left a (marker ++ b) ha]
  have hshape : marker ++ b = '_' :: (str "____" ++ b) := rfl
  rw [hshape, countSub_cons]
  have hp : marker.isPrefixOf ('_' :: (str "____" ++ b)) = true := by
    rw [marker_cons]
    simp [List.isPrefixOf, str]
  rw [hp]
  have hz : countSub (str "____" ++ b) marker = 0 := by
    refine countSub_eq_zero _ ?_
    rw [List.count_append]
    have hb0 : b.count '_' = 0 := by
      rw [List.count_eq_zero]
      intro hmem
      exact hb '_' hmem rfl
    rw [hb0]
    decide
  rw [hz, if_pos rfl]

/-! ## Tokens are substrings; fill-blank characterization -/

theorem wordTokAux_infix :
    ∀ (l acc : List Char), ∀ t ∈ wordTokAux l acc,
      ∃ a b, a ++ t ++ b = acc.reverse ++ l := by
  intro l
  induction l with
  | nil =>
    intro acc t ht
    simp only [wordTokAux] at ht
    by_cases hacc : acc.isEmpty
    · rw [if_pos hacc] at ht
      simp at ht
    · rw [if_neg hacc] at ht
      rcases List.mem_singleton.mp ht with rfl
      exact ⟨[], [], by simp⟩
  | cons c cs ih =>
    intro acc t ht
    simp only [wordTokAux] at ht
    by_cases htok : isTokChar c
    · rw [if_pos htok] at ht
      obtain ⟨a, b, hab⟩ := ih (c :: acc) t ht
      refine ⟨a, b, ?_⟩
      rw [hab]
      simp
    · rw [if_neg htok] at ht
      by_cases hsp : isSpacePy c
      · rw [if_pos hsp] at ht
        rcases List.mem_append.mp ht with hemit | hrest
        · by_cases hacc : acc.isEmpty
          · rw [if_pos hacc] at hemit
            simp at hemit
          · rw [if_neg hacc] at hemit
            rcases List.mem_singleton.mp hemit with rfl
            exact ⟨[], c :: cs, by simp⟩
        · obtain ⟨a, b, hab⟩ := ih [] t hrest
          refine ⟨acc.reverse ++ [c] ++ a, b, ?_⟩
          simp only [List.reverse_nil, List.nil_append] at hab
          simp [List.append_assoc, hab]
      · rw [if_neg hsp] at ht
        rcases List.mem_append.mp ht with hemit | hrest
        · by_cases hacc : acc.isEmpty
          · rw [if_pos hacc] at hemit
            simp at hemit
          · rw [if_neg hacc] at hemit
            rcases List.mem_singleton.mp hemit with rfl
            exact ⟨[], c :: cs, by simp⟩
        · rcases List.mem_cons.mp hrest with rfl | hrest'
          · exact ⟨acc.reverse, cs, by simp⟩
          · obtain ⟨a, b, hab⟩ := ih [] t hrest'
            refine ⟨acc.reverse ++ [c] ++ a, b, ?_⟩
            simp only [List.reverse_nil, List.nil_append] at hab
            simp [List.append_assoc, hab]

theorem wordTokenize_infix (s : List Char) :
    ∀ t ∈ wordTokenize s, ∃ a b, a ++ t ++ b = s := by
  intro t ht
  have := wordTokAux_infix s [] t ht
  simpa using this

theorem fillBlankFrom_mem :
    ∀ (ss : List (List Char)) (cs : List Nat), ∀ q ∈ fillBlankFrom ss cs,
      q.original_sentence ∈ ss ∧
      q.answer ∈ contentWords q.original_sentence ∧
      q.prompt = replaceFirst q.original_sentence q.answer marker := by
  intro ss
  induction ss with
  | nil => intro cs q hq; simp [fillBlankFrom] at hq
  | cons s rest ih =>
    intro cs q hq
    simp only [fillBlankFrom] at hq
    by_cases h : (contentWords s).isEmpty
    · rw [if_pos h] at hq
      obtain ⟨h1, h2, h3⟩ := ih cs q hq
      exact ⟨List.mem_cons_of_mem _ h1, h2, h3⟩
    · rw [if_neg h] at hq
      rcases List.mem_cons.mp hq with rfl | hq
      · refine ⟨List.mem_cons_self _ _, ?_, rfl⟩
        have hlen : 0 < (contentWords s).length := by
          cases hcw : contentWords s with
          | nil => rw [hcw] at h; simp at h
          | cons w ws => simp
        exact getD_mem _ _ _ (Nat.mod_lt _ hlen)
      · obtain ⟨h1, h2, h3⟩ := ih cs.tail q hq
        exact ⟨List.mem_cons_of_mem _ h1, h2, h3⟩

theorem mem_contentWords_props (s w : List Char)
    (hw : w ∈ contentWords s) :
    w ∈ wordTokenize s ∧ isAlphaTok w ∧ 3 < w.length := by
  have := List.mem_filter.mp hw
  refine ⟨this.1, ?_, ?_⟩
  · have := this.2
    simp only [Bool.and_eq_true, decide_eq_true_eq] at this
    exact this.1
  · have := this.2
    simp only [Bool.and_eq_true, decide_eq_true_eq] at this
    exact this.2

/-- C1 counterexample: on a sentence that already contains the marker
`_____`, the emitted prompt contains the marker at two positions, refuting
"the blank marker appears exactly once in the prompt". -/
theorem c1_counterexample :
    (generate_fill_blank_questions
      (str "_____ aaaa bbbb cccc dddd eeee ffff gggg hhhh iiii") 1 [0] [0]
      ).map (fun q => countSub q.prompt marker) = [2] := by
  decide

/-- C1 (amended): for every emitted fill-blank question whose original
sentence does not contain the underscore character, the blank marker `_____`
occurs at exactly one position of the prompt, and replacing its first
occurrence with the answer reproduces the original sentence exactly; the
code replaces the first substring occurrence of the blank word, so when the
word occurs several times only the first occurrence is blanked.  (When the
sentence already contains `_____` or other underscore runs, the marker can
occur more than once and the round trip can fail.) -/
theorem c1_fill_blank_round_trip (text : List Char) (num : Nat)
    (sampleSeed choiceSeeds : List Nat) :
    ∀ q ∈ generate_fill_blank_questions text num sampleSeed choiceSeeds,
      '_' ∉ q.original_sentence →
      countSub q.prompt marker = 1 ∧
      replaceFirst q.prompt marker q.answer = q.original_sentence := by
  intro q hq hund
  obtain ⟨_, hansw, hprompt⟩ := fillBlankFrom_mem _ _ q hq
  obtain ⟨htok, halpha, _⟩ := mem_contentWords_props _ _ hansw
  have hne : q.answer ≠ [] := by
    intro hnil
    rw [hnil] at halpha
    simp [isAlphaTok] at halpha
  obtain ⟨a0, b0, hab⟩ := wordTokenize_infix _ _ htok
  have hsome := splitFirst_isSome q.answer hne a0 b0 _ hab
  rw [Option.isSome_iff_exists] at hsome
  obtain ⟨⟨a, b⟩, hsplit⟩ := hsome
  have hdecomp : a ++ q.answer ++ b = q.original_sentence :=
    splitFirst_eq _ _ _ _ hsplit
  have hprompt' : q.prompt = a ++ marker ++ b := by
    rw [hprompt, replaceFirst, hsplit]
  have hanot : ∀ c ∈ a, c ≠ '_' := by
    intro c hc he
    subst he
    exact hund (hdecomp ▸ List.mem_append.mpr
      (Or.inl (List.mem_append.mpr (Or.inl hc))))
  have hbnot : ∀ c ∈ b, c ≠ '_' := by
    intro c hc he
    subst he
    exact hund (hdecomp ▸ List.mem_append.mpr (Or.inr hc))
  constructor
  · rw [hprompt']
    exact countSub_marker_one a b hanot hbnot
  · rw [hprompt', replaceFirst, splitFirst_marker_append a b hanot]
    exact hdecomp

/-- C1 witness: a concrete run where the amended round trip holds. -/
theorem c1_witness :
    countSub ((generate_fill_blank_questions
      (str "aaaa bbbb cccc dddd eeee ffff gggg hhhh iiii") 1 [0] [0]
      ).headD ⟨[], [], [], []⟩).prompt marker = 1 ∧
    replaceFirst ((generate_fill_blank_questions
      (str "aaaa bbbb cccc dddd eeee ffff gggg hhhh iiii") 1 [0] [0]
      ).headD ⟨[], [], [], []⟩).prompt marker
      ((generate_fill_blank_questions
      (str "aaaa bbbb cccc dddd eeee ffff gggg hhhh iiii") 1 [0] [0]
      ).headD ⟨[], [], [], []⟩).answer =
      ((generate_fill_blank_questions
      (str "aaaa bbbb cccc dddd eeee ffff gggg hhhh iiii") 1 [0] [0]
      ).headD ⟨[], [], [], []⟩).original_sentence :=
  c1_fill_blank_round_trip
    (str "aaaa bbbb cccc dddd eeee ffff gggg hhhh iiii") 1 [0] [0]
    _ (by decide) (by decide)

/-- C4 counterexample: the stopword "their" (length 5) is a legal blank word
for the fill-blank generator, refuting "no question has a stopword as its
answer". -/
theorem c4_counterexample :
    (generate_fill_blank_questions
      (str "their friends gathered around their garden because their house looked amazing today")
      1 [0] [0]).map (fun q => q.answer) = [str "their"] ∧
    str "their" ∈ stopWords := by
  refine ⟨by decide, by decide⟩

/-- C4 (amended): every emitted fill-blank answer is an alphabetic token
longer than 3 characters drawn from the content words of its sentence —
stopwords of length at least 4 remain eligible for blanking; a sampled
sentence with no eligible content word yields no question (and no error). -/
theorem c4_fill_blank_answers (text : List Char) (num : Nat)
    (sampleSeed choiceSeeds : List Nat) :
    ∀ q ∈ generate_fill_blank_questions text num sampleSeed choiceSeeds,
      isAlphaTok q.answer ∧ 3 < q.answer.length ∧
      q.answer ∈ contentWords q.original_sentence := by
  intro q hq
  obtain ⟨_, hansw, _⟩ := fillBlankFrom_mem _ _ q hq
  obtain ⟨_, halpha, hlen⟩ := mem_contentWords_props _ _ hansw
  exact ⟨halpha, hlen, hansw⟩

/-- C4 witness: the amended property evaluated on a concrete run. -/
theorem c4_witness :
    isAlphaTok ((generate_fill_blank_questions
      (str "Quick brown foxes jumped over seven lazy sleeping dogs yesterday")
      1 [0] [0]).headD ⟨[], [], [], []⟩).answer ∧
    3 < ((generate_fill_blank_questions
      (str "Quick brown foxes jumped over seven lazy sleeping dogs yesterday")
      1 [0] [0]).headD ⟨[], [], [], []⟩).answer.length ∧
    ((generate_fill_blank_questions
      (str "Quick brown foxes jumped over seven lazy sleeping dogs yesterday")
      1 [0] [0]).headD ⟨[], [], [], []⟩).answer ∈
      contentWords ((generate_fill_blank_questions
      (str "Quick brown foxes jumped over seven lazy sleeping dogs yesterday")
      1 [0] [0]).headD ⟨[], [], [], []⟩).original_sentence :=
  c4_fill_blank_answers
    (str "Quick brown foxes jumped over seven lazy sleeping dogs yesterday")
    1 [0] [0] _ (by decide)

/-! ## Lemmas for the multiple-choice generator -/

theorem distractorName_ne_alpha (w : List Char) (h : isAlphaTok w)
    (n : Nat) : w ≠ distractorName n := by
  intro he
  subst he
  have hu : '_' ∈ distractorName n :=
    List.mem_append.mpr (Or.inl (by decide))
  simp only [isAlphaTok, Bool.and_eq_true, List.all_eq_true] at h
  have := h.2 '_' hu
  exact absurd this (by decide)

theorem padDistractors_take_facts (l : List (List Char))
    (hlen : l.length ≤ 3) (hnd : l.Nodup)
    (halpha : ∀ w ∈ l, isAlphaTok w) :
    ((padDistractors l).take 3).length = 3 ∧
    ((padDistractors l).take 3).Nodup ∧
    ∀ o ∈ (padDistractors l).take 3,
      o ∈ l ∨ ∃ n, n < 3 ∧ o = distractorName n := by
  cases l with
  | nil =>
    have hpad : ((padDistractors ([] : List (List Char))).take 3) =
        [distractorName 0, distractorName 1, distractorName 2] := rfl
    rw [hpad]
    refine ⟨rfl, by decide, ?_⟩
    intro o ho
    simp only [List.mem_cons, List.not_mem_nil, or_false] at ho
    rcases ho with rfl | rfl | rfl
    · exact Or.inr ⟨0, by omega, rfl⟩
    · exact Or.inr ⟨1, by omega, rfl⟩
    · exact Or.inr ⟨2, by omega, rfl⟩
  | cons a l' =>
    cases l' with
    | nil =>
      have hpad : ((padDistractors [a]).take 3) =
          [a, distractorName 1, distractorName 2] := rfl
      rw [hpad]
      have ha := halpha a (List.mem_cons_self _ _)
      refine ⟨rfl, ?_, ?_⟩
      · refine List.nodup_cons.mpr ⟨?_, by decide⟩
        intro hmem
        simp only [List.mem_cons, List.not_mem_nil, or_false] at hmem
        rcases hmem with he | he
        · exact distractorName_ne_alpha a ha 1 he
        · exact distractorName_ne_alpha a ha 2 he
      · intro o ho
        simp only [List.mem_cons, List.not_mem_nil, or_false] at ho
        rcases ho with rfl | rfl | rfl
        · exact Or.inl (List.mem_cons_self _ _)
        · exact Or.inr ⟨1, by omega, rfl⟩
        · exact Or.inr ⟨2, by omega, rfl⟩
    | cons b l'' =>
      cases l'' with
      | nil =>
        have hpad : ((padDistractors [a, b]).take 3) =
            [a, b, distractorName 2] := rfl
        rw [hpad]
        have ha := halpha a (List.mem_cons_self _ _)
        have hb := halpha b (List.mem_cons_of_mem _ (List.mem_cons_self _ _))
        have hab : a ∉ ([b] : List (List Char)) := (List.nodup_cons.mp hnd).1
        refine ⟨rfl, ?_, ?_⟩
        · refine List.nodup_cons.mpr ⟨?_,
            List.nodup_cons.mpr ⟨?_, List.nodup_singleton _⟩⟩
          · intro hmem
            simp only [List.mem_cons, List.not_mem_nil, or_false] at hmem
            rcases hmem with he | he
            · exact hab (he ▸ List.mem_cons_self _ _)
            · exact distractorName_ne_alpha a ha 2 he
          · intro hmem
            simp only [List.mem_cons, List.not_mem_nil, or_false] at hmem
            exact distractorName_ne_alpha b hb 2 hmem
        · intro o ho
          simp only [List.mem_cons, List.not_mem_nil, or_false] at ho
          rcases ho with rfl | rfl | rfl
          · exact Or.inl (List.mem_cons_self _ _)
          · exact Or.inl (List.mem_cons_of_mem _ (List.mem_cons_self _ _))
          · exact Or.inr ⟨2, by omega, rfl⟩
      | cons c rest =>
        have hrest : rest = [] := by
          cases rest with
          | nil => rfl
          | cons d rest' => simp at hlen
        subst hrest
        have hpad : ((padDistractors [a, b, c]).take 3) = [a, b, c] := rfl
        rw [hpad]
        refine ⟨rfl, hnd, ?_⟩
        intro o ho
        exact Or.inl ho

theorem mcFrom_mem (ks : List (List Char)) :
    ∀ (sub : List (List Char)) (seeds : List (List Nat)),
      ∀ q ∈ mcFrom ks sub seeds,
        ∃ kw, kw ∈ sub ∧ ∃ sd, q.correct = kw ∧
          q.options = randShuffle
            (kw :: (padDistractors
              ((ks.filter fun w => w != kw && decide (3 < w.length)).take 3)
              ).take 3) sd := by
  intro sub
  induction sub with
  | nil => intro seeds q hq; simp [mcFrom] at hq
  | cons kw rest ih =>
    intro seeds q hq
    simp only [mcFrom] at hq
    rcases List.mem_cons.mp hq with rfl | hq
    · exact ⟨kw, List.mem_cons_self _ _, seeds.headD [], rfl, rfl⟩
    · obtain ⟨kw', hkw', sd, h1, h2⟩ := ih seeds.tail q hq
      exact ⟨kw', List.mem_cons_of_mem _ hkw', sd, h1, h2⟩

/-- C2: every emitted multiple-choice question has exactly 4 pairwise
distinct options, the correct answer is among them, and every option is
either one of the ranked keywords or a placeholder `distractor_n` with
`n < 3` filling in when fewer keywords are available. -/
theorem c2_multiple_choice_options (text : List Char) (num : Nat)
    (seeds : List (List Nat)) :
    ∀ q ∈ generate_multiple_choice_questions text num seeds,
      q.options.length = 4 ∧ q.options.Nodup ∧ q.correct ∈ q.options ∧
      ∀ o ∈ q.options,
        o ∈ extract_keywords text (num * 3) ∨
          ∃ n, n < 3 ∧ o = distractorName n := by
  intro q hq
  simp only [generate_multiple_choice_questions] at hq
  obtain ⟨kw, hkw_sub, sd, hcorr, hopts⟩ := mcFrom_mem _ _ _ q hq
  set ks := extract_keywords text (num * 3) with hks
  set wrong := (ks.filter fun w => w != kw && decide (3 < w.length)).take 3
    with hwrong
  have hkw_ks : kw ∈ ks := (List.take_sublist _ _).mem hkw_sub
  have hnd : ks.Nodup := extract_keywords_nodup text (num * 3)
  have halpha : ∀ w ∈ ks, isAlphaTok w :=
    fun w hw => (mem_eligibleWords_props text w
      (mem_extract_keywords text (num * 3) w hw)).1
  have hw_sub : List.Sublist wrong ks :=
    (List.take_sublist _ _).trans (List.filter_sublist _)
  have hw_nodup := hw_sub.nodup hnd
  have hw_len : wrong.length ≤ 3 := by
    rw [hwrong, List.length_take]
    omega
  have hw_alpha : ∀ w ∈ wrong, isAlphaTok w :=
    fun w hw => halpha w (hw_sub.mem hw)
  have hkw_not : kw ∉ wrong := by
    intro hmem
    have := List.mem_filter.mp ((List.take_sublist _ _).mem hmem)
    simp at this
  obtain ⟨hp_len, hp_nodup, hp_mem⟩ :=
    padDistractors_take_facts wrong hw_len hw_nodup hw_alpha
  have hkw_notp : kw ∉ (padDistractors wrong).take 3 := by
    intro hmem
    rcases hp_mem kw hmem with h | ⟨n, _, he⟩
    · exact hkw_not h
    · exact distractorName_ne_alpha kw (halpha kw hkw_ks) n he
  have hB_nodup : (kw :: (padDistractors wrong).take 3).Nodup :=
    List.nodup_cons.mpr ⟨hkw_notp, hp_nodup⟩
  have hperm := randShuffle_perm (kw :: (padDistractors wrong).take 3) sd
  refine ⟨?_, ?_, ?_, ?_⟩
  · rw [hopts, hperm.length_eq, List.length_cons, hp_len]
  · rw [hopts]
    exact hperm.symm.nodup hB_nodup
  · rw [hopts, hcorr, hperm.mem_iff]
    exact List.mem_cons_self _ _
  · intro o ho
    rw [hopts, hperm.mem_iff] at ho
    rcases List.mem_cons.mp ho with rfl | ho
    · exact Or.inl hkw_ks
    · rcases hp_mem o ho with h | h
      · exact Or.inl (hw_sub.mem h)
      · exact Or.inr h

/-- C2 witness: the invariant evaluated on a concrete run (3 distinct
keywords, so one placeholder distractor appears). -/
theorem c2_witness :
    ((generate_multiple_choice_questions (str "wind wind mill mill lake") 1
        [[1, 0, 2, 0]]).headD ⟨[], [], [], [], []⟩).options.length = 4 ∧
    ((generate_multiple_choice_questions (str "wind wind mill mill lake") 1
        [[1, 0, 2, 0]]).headD ⟨[], [], [], [], []⟩).options.Nodup ∧
    ((generate_multiple_choice_questions (str "wind wind mill mill lake") 1
        [[1, 0, 2, 0]]).headD ⟨[], [], [], [], []⟩).correct ∈
      ((generate_multiple_choice_questions (str "wind wind mill mill lake") 1
        [[1, 0, 2, 0]]).headD ⟨[], [], [], [], []⟩).options ∧
    ∀ o ∈ ((generate_multiple_choice_questions (str "wind wind mill mill lake")
        1 [[1, 0, 2, 0]]).headD ⟨[], [], [], [], []⟩).options,
      o ∈ extract_keywords (str "wind wind mill mill lake") (1 * 3) ∨
        ∃ n, n < 3 ∧ o = distractorName n :=
  c2_multiple_choice_options (str "wind wind mill mill lake") 1
    [[1, 0, 2, 0]] _ (by decide)

/-! ## Lemmas for the orchestrator configuration -/

theorem lookup_cons_ne {β : Type} (a k : String) (v : β)
    (rest : List (String × β)) (h : a ≠ k) :
    List.lookup a ((k, v) :: rest) = List.lookup a rest := by
  simp [List.lookup, beq_eq_false_iff_ne.mpr h]

/-- C5 counterexample: a supplied config missing a recognized key does not
default that key to 0 — the code raises `KeyError` (modelled as an error
naming the first missing key), refuting "absent recognized keys request 0
questions and it does not raise". -/
theorem c5_counterexample :
    generate_all_questions (str "") (some [("vocabulary", 1)]) [] [] [] =
      Except.error "fill_blank" := rfl

/-- C5 (amended): `generate_all_questions` ignores unrecognized config keys;
when no config is supplied it uses the default counts 5/5/5/3; but a
supplied config must contain all four recognized keys — if any is absent the
call raises `KeyError` rather than treating the count as 0 (when all four
are present it returns a result). -/
theorem c5_generate_all_config (text : List Char) (k : String) (v : Nat)
    (rest cfg : List (String × Nat)) (sampleSeed choiceSeeds : List Nat)
    (mcSeeds : List (List Nat)) :
    (k ∉ ["vocabulary", "fill_blank", "multiple_choice",
        "reading_comprehension"] →
      generate_all_questions text (some ((k, v) :: rest)) sampleSeed
          choiceSeeds mcSeeds =
        generate_all_questions text (some rest) sampleSeed choiceSeeds
          mcSeeds) ∧
    generate_all_questions text none sampleSeed choiceSeeds mcSeeds =
      Except.ok
        { vocabulary := generate_vocabulary_questions text 5
          fill_blank :=
            generate_fill_blank_questions text 5 sampleSeed choiceSeeds
          multiple_choice := generate_multiple_choice_questions text 5 mcSeeds
          reading_comprehension := generate_reading_comprehension text 3 } ∧
    ((List.lookup "vocabulary" cfg).isSome →
      (List.lookup "fill_blank" cfg).isSome →
      (List.lookup "multiple_choice" cfg).isSome →
      (List.lookup "reading_comprehension" cfg).isSome →
      (generate_all_questions text (some cfg) sampleSeed choiceSeeds
        mcSeeds).isOk = true) := by
  refine ⟨?_, rfl, ?_⟩
  · intro hk
    simp only [List.mem_cons, List.not_mem_nil, or_false, not_or] at hk
    obtain ⟨h1, h2, h3, h4⟩ := hk
    unfold generate_all_questions
    dsimp only
    rw [Option.getD_some, Option.getD_some,
      lookup_cons_ne _ _ _ _ (Ne.symm h1), lookup_cons_ne _ _ _ _ (Ne.symm h2),
      lookup_cons_ne _ _ _ _ (Ne.symm h3), lookup_cons_ne _ _ _ _ (Ne.symm h4)]
  · intro h1 h2 h3 h4
    obtain ⟨v1, hv1⟩ := Option.isSome_iff_exists.mp h1
    obtain ⟨v2, hv2⟩ := Option.isSome_iff_exists.mp h2
    obtain ⟨v3, hv3⟩ := Option.isSome_iff_exists.mp h3
    obtain ⟨v4, hv4⟩ := Option.isSome_iff_exists.mp h4
    unfold generate_all_questions
    dsimp only
    rw [Option.getD_some, hv1, hv2, hv3, hv4]
    rfl

/-- C5 witness: the amended behaviour on concrete configurations. -/
theorem c5_witness :
    (generate_all_questions (str "")
        (some (("banana", 7) :: defaultConfig)) [] [] [] =
      generate_all_questions (str "") (some defaultConfig) [] [] []) ∧
    generate_all_questions (str "") none [] [] [] =
      Except.ok
        { vocabulary := generate_vocabulary_questions (str "") 5
          fill_blank := generate_fill_blank_questions (str "") 5 [] []
          multiple_choice :=
            generate_multiple_choice_questions (str "") 5 []
          reading_comprehension :=
            generate_reading_comprehension (str "") 3 } ∧
    (generate_all_questions (str "") (some defaultConfig) [] [] []).isOk =
      true :=
  ⟨(c5_generate_all_config (str "") "banana" 7 defaultConfig defaultConfig
      [] [] []).1 (by decide),
   (c5_generate_all_config (str "") "banana" 7 defaultConfig defaultConfig
      [] [] []).2.1,
   (c5_generate_all_config (str "") "banana" 7 defaultConfig defaultConfig
      [] [] []).2.2 (by decide) (by decide) (by decide) (by decide)⟩
